import Mathlib

/-!
Shallow embedding of the radical reconciliation engine of this repository:
`tests/tools/radicals/build_radicals_from_vocab.py` (loading the canonical
Kangxi table, extracting per-glyph usage from the vocabulary CSVs, classifying
and sorting the derived table) and the validation pass of
`tests/tools/radicals/verify_radicals.py` (check 3: vocabulary/radicals
alignment).

Modelling conventions:
* Python strings are Lean `String`s (both are character sequences ordered
  lexicographically by code point).
* Python dictionaries built by insertion are association lists in insertion
  order; `dict[k]` / `k in dict` is `alookup`.
* Python sets whose only observations are membership and `sorted(...)` are
  duplicate-free lists in insertion order.
* A file that may be absent (`os.path.exists`) is an `Option`; the unhandled
  exception raised by `open` on a missing required file is `Except.error`.
* The module-level constant tables `TRADITIONAL_FORMS`, `VARIANT_TO_MAIN` and
  `COMMON_COMPONENTS` are passed to the engine as explicit arguments; the
  hardcoded values of the two radical maps are reproduced below.
-/

namespace RadicalEngine

/-- Association-list lookup, first binding wins (Python `dict[k]` where the
dict was built with first-wins or unique keys). -/
def alookup {α : Type} : List (String × α) → String → Option α
  | [], _ => none
  | (k, v) :: rest, g => if k = g then some v else alookup rest g

/-- Association-list update, Python `dict[k] = v` on a dict that may already
hold `k`: the first binding of `k` is overwritten in place, otherwise the
binding is appended. -/
def aset {α : Type} : List (String × α) → String → α → List (String × α)
  | [], k, v => [(k, v)]
  | (k', v') :: rest, k, v =>
    if k' = k then (k, v) :: rest else (k', v') :: aset rest k v

/-- Python `str.split('+')` on the character list of a string. -/
def splitPlus : List Char → List (List Char)
  | [] => [[]]
  | c :: cs =>
    let r := splitPlus cs
    if c = '+' then [] :: r
    else
      match r with
      | [] => [[c]]
      | h :: t => (c :: h) :: t

/-- Python `str.strip()`: drop whitespace from both ends. -/
def trimChars (l : List Char) : List Char :=
  ((l.dropWhile Char.isWhitespace).reverse.dropWhile Char.isWhitespace).reverse

/-- Parsing of a `+`-joined decomposition string: split on `+`, strip each
component, drop the empty ones (`build_radicals_from_vocab.py` lines 317-319,
`verify_radicals.py` lines 101-104). -/
def parseDecomp (s : String) : List String :=
  ((splitPlus s.data).map (fun l => String.mk (trimChars l))).filter
    (fun t => t != "")

/-- Bool test that `nd` is a prefix of the second list. -/
def prefOf : List Char → List Char → Bool
  | [], _ => true
  | _ :: _, [] => false
  | a :: as, b :: bs => a == b && prefOf as bs

/-- Helper for `substrB`: does `nd` occur contiguously in the list? -/
def substrAux (nd : List Char) : List Char → Bool
  | [] => prefOf nd []
  | c :: cs => prefOf nd (c :: cs) || substrAux nd cs

/-- Python `needle in hay` for strings: contiguous substring containment. -/
def substrB (needle hay : String) : Bool :=
  substrAux needle.data hay.data

/-- Python `','.join(l)`. -/
def joinComma : List String → String
  | [] => ""
  | [s] => s
  | s :: t :: rest => s ++ "," ++ joinComma (t :: rest)

/-- Lexicographic comparison of character lists by code point, the order
Python uses to compare strings. -/
def leChars : List Char → List Char → Bool
  | [], _ => true
  | _ :: _, [] => false
  | a :: as, b :: bs =>
    if a < b then true
    else if b < a then false
    else leChars as bs

/-- Python string order `s <= t`. -/
def strLe (s t : String) : Prop :=
  leChars s.data t.data = true

instance : DecidableRel strLe :=
  fun s t => inferInstanceAs (Decidable (leChars s.data t.data = true))

/-- Python `sorted(...)` on a list of strings. -/
def sortStrings (l : List String) : List String :=
  List.insertionSort strLe l

/-! ## Data model -/

/-- One row of `radicals_214.csv` as read by `csv.DictReader`. -/
structure Row214 where
  radical : String
  pinyin : String
  description : String
  meaning : String
deriving DecidableEq, Repr

/-- One value of the dict built by `load_radicals_214` (the row fields plus
the constant `Set` tag `kangxi_214`). -/
structure RadRecord where
  radical : String
  pinyin : String
  description : String
  meaning : String
  set : String
deriving DecidableEq, Repr

/-- One row of a per-level vocabulary CSV (`Word`, `Pinyin`, `English`,
`Radicals` columns; absent columns read as `""` by `row.get`). -/
structure VocabRow where
  word : String
  pinyin : String
  english : String
  radicals : String
deriving DecidableEq, Repr

/-- Per-glyph usage record (`radical_usage` defaultdict value). The `levels`
set is modelled as a duplicate-free list in insertion order. -/
structure UsageRecord where
  count : Nat
  levels : List String
  words : List String
deriving DecidableEq, Repr

/-- Value of the `vocab_lookup` dict: pinyin and meaning of a surface word. -/
structure VocabInfo where
  pinyin : String
  meaning : String
deriving DecidableEq, Repr

/-- One row of the derived `radicals.csv`. `mainRadical = none` models the
absence of the `MainRadical` key on non-variant rows (written as an empty
cell by `csv.DictWriter`). -/
structure DerivedEntry where
  radical : String
  pinyin : String
  description : String
  meaning : String
  set : String
  mainRadical : Option String
  levels : String
  usageCount : Nat
  traditional : String
deriving DecidableEq, Repr

abbrev UsageMap := List (String × UsageRecord)
abbrev VocabLookup := List (String × VocabInfo)

/-- Hardcoded `VARIANT_TO_MAIN` table (variant form to main 214 radical). -/
def VARIANT_TO_MAIN : List (String × String) :=
  [("亻", "人"), ("刂", "刀"), ("氵", "水"), ("灬", "火"), ("扌", "手"),
   ("忄", "心"), ("犭", "犬"), ("礻", "示"), ("衤", "衣"), ("纟", "糸"),
   ("钅", "金"), ("饣", "食"), ("讠", "言"), ("阝", "阜"), ("罒", "网"),
   ("⺮", "竹"), ("⺶", "羊"), ("⺼", "月"), ("爫", "爪"), ("⻊", "足")]

/-- Hardcoded `TRADITIONAL_FORMS` table (simplified glyph to traditional form
and note). -/
def TRADITIONAL_FORMS : List (String × (String × String)) :=
  [("讠", ("言", "speech radical")), ("钅", ("金", "metal radical")),
   ("饣", ("食", "food radical")), ("纟", ("糸", "silk radical")),
   ("车", ("車", "cart/vehicle")), ("贝", ("貝", "shell/money")),
   ("见", ("見", "see")), ("门", ("門", "gate/door")), ("马", ("馬", "horse")),
   ("鱼", ("魚", "fish")), ("鸟", ("鳥", "bird")), ("齿", ("齒", "tooth")),
   ("龙", ("龍", "dragon")), ("龟", ("龜", "turtle")), ("页", ("頁", "page/leaf")),
   ("风", ("風", "wind")), ("飞", ("飛", "fly")), ("长", ("長", "long")),
   ("韦", ("韋", "tanned leather")), ("麦", ("麥", "wheat")),
   ("黄", ("黃", "yellow")), ("齐", ("齊", "even/neat")), ("辶", ("辵", "walk/move"))]

/-! ## `build_radicals_from_vocab.py`: the reconciliation engine -/

/-- Record stored by `load_radicals_214` for one row: the row fields plus the
constant tag `Set = kangxi_214` (lines 276-282). -/
def mkRec214 (row : Row214) : RadRecord :=
  ⟨row.radical, row.pinyin, row.description, row.meaning, "kangxi_214"⟩

/-- One `load_radicals_214` loop step folded over the rows: the first
occurrence of a glyph wins, later duplicates are silently dropped
(lines 270-282). -/
def loadAux (acc : List (String × RadRecord)) : List Row214 → List (String × RadRecord)
  | [] => acc
  | row :: rest =>
    loadAux
      (if (alookup acc row.radical).isSome then acc
       else acc ++ [(row.radical, mkRec214 row)])
      rest

/-- Dict built by `load_radicals_214` from the rows of `radicals_214.csv`. -/
def load_radicals_214 (rows : List Row214) : List (String × RadRecord) :=
  loadAux [] rows

/-- One usage-map mutation for one occurrence of a glyph (lines 320-323):
count + 1, level added to the set, word appended while fewer than 5 examples
are recorded. -/
def touch (r : UsageRecord) (level word : String) : UsageRecord :=
  { count := r.count + 1
    levels := if level ∈ r.levels then r.levels else r.levels ++ [level]
    words := if r.words.length < 5 then r.words ++ [word] else r.words }

/-- defaultdict access plus mutation: update the record of `g` in place,
inserting the default record first when `g` is absent. -/
def bump : UsageMap → String → String → String → UsageMap
  | [], g, level, word => [(g, touch ⟨0, [], []⟩ level word)]
  | (k, r) :: rest, g, level, word =>
    if k = g then (k, touch r level word) :: rest
    else (k, r) :: bump rest g level word

/-- vocab_lookup update for one row (lines 310-311): first occurrence of a
nonempty surface word wins. -/
def addVocab (vl : VocabLookup) (row : VocabRow) : VocabLookup :=
  if row.word ≠ "" ∧ (alookup vl row.word).isNone then
    vl ++ [(row.word, ⟨row.pinyin, row.english⟩)]
  else vl

/-- Processing of one vocabulary row at one level (lines 303-323): record the
word in `vocab_lookup`, then, when the `Radicals` cell is nonempty, bump every
parsed component. -/
def processRow (level : String) (st : UsageMap × VocabLookup) (row : VocabRow) :
    UsageMap × VocabLookup :=
  let vl := addVocab st.2 row
  if row.radicals = "" then (st.1, vl)
  else ((parseDecomp row.radicals).foldl (fun m g => bump m g level row.word) st.1, vl)

/-- Processing of one level file (lines 295-323): a missing file only prints a
warning and is skipped. -/
def processLevel (st : UsageMap × VocabLookup) (lf : String × Option (List VocabRow)) :
    UsageMap × VocabLookup :=
  match lf.2 with
  | none => st
  | some rows => rows.foldl (processRow lf.1) st

/-- Dict pair built by `extract_radicals_from_vocab` over the per-level
vocabulary files (each file either present with its rows or absent). -/
def extract_radicals_from_vocab (files : List (String × Option (List VocabRow))) :
    UsageMap × VocabLookup :=
  files.foldl processLevel ([], [])

/-- Classification of one used glyph (`build_custom_radicals` loop body,
lines 332-401): canonical lookup first, then variant lookup, then
vocabulary-self / common-component fallback. -/
def classify (radicals_214 : List (String × RadRecord))
    (vm : List (String × String)) (tf : List (String × (String × String)))
    (cc : List (String × (String × String))) (vl : VocabLookup)
    (rad : String) (u : UsageRecord) : DerivedEntry :=
  let lv := joinComma (sortStrings u.levels)
  match alookup radicals_214 rad with
  | some base =>
    { radical := base.radical, pinyin := base.pinyin
      description := base.description, meaning := base.meaning
      set := base.set, mainRadical := none, levels := lv, usageCount := u.count
      traditional :=
        match alookup tf rad with
        | some t => t.1
        | none => rad }
  | none =>
    match alookup vm rad with
    | some main_rad =>
      match alookup radicals_214 main_rad with
      | some base =>
        { radical := rad, pinyin := base.pinyin
          description := base.description ++ " (variant form)"
          meaning := base.meaning ++ " (component form)"
          set := "variant", mainRadical := some main_rad, levels := lv
          usageCount := u.count, traditional := rad }
      | none =>
        { radical := rad, pinyin := ""
          description := "variant of " ++ main_rad
          meaning := "component form"
          set := "variant", mainRadical := some main_rad, levels := lv
          usageCount := u.count, traditional := rad }
    | none =>
      match alookup vl rad with
      | some info =>
        { radical := rad, pinyin := info.pinyin
          description := "character component (also a word)"
          meaning := info.meaning
          set := "component", mainRadical := none, levels := lv
          usageCount := u.count, traditional := rad }
      | none =>
        match alookup cc rad with
        | some pm =>
          { radical := rad, pinyin := pm.1
            description := "common character component"
            meaning := pm.2
            set := "component", mainRadical := none, levels := lv
            usageCount := u.count, traditional := rad }
        | none =>
          { radical := rad, pinyin := ""
            description := "word component"
            meaning := "character component (not official radical)"
            set := "component", mainRadical := none, levels := lv
            usageCount := u.count, traditional := rad }

/-- List built by `build_custom_radicals`: one entry appended per item of the
usage map, in its iteration (= insertion) order. -/
def build_custom_radicals (radicals_214 : List (String × RadRecord))
    (vm : List (String × String)) (tf : List (String × (String × String)))
    (cc : List (String × (String × String)))
    (usage : UsageMap) (vl : VocabLookup) : List DerivedEntry :=
  usage.map (fun p => classify radicals_214 vm tf cc vl p.1 p.2)

/-- Numeric rank of a `Set` tag (`set_order.get(..., 3)` in `sort_radicals`):
kangxi_214 before variant before component, unknown tags last. -/
def set_order (s : String) : Nat :=
  if s = "kangxi_214" then 0
  else if s = "variant" then 1
  else if s = "component" then 2
  else 3

/-- Bool form of the sort key order of `sort_radicals`: the key tuple
`(set_order, radical)` compared lexicographically. -/
def entryLeB (a b : DerivedEntry) : Bool :=
  decide (set_order a.set < set_order b.set) ||
    (decide (set_order a.set = set_order b.set) && leChars a.radical.data b.radical.data)

/-- Sort key order of `sort_radicals` as a relation. -/
def entryLe (a b : DerivedEntry) : Prop :=
  entryLeB a b = true

instance : DecidableRel entryLe :=
  fun a b => inferInstanceAs (Decidable (entryLeB a b = true))

/-- Python `sorted(radicals, key=...)` of `sort_radicals` (lines 405-408). -/
def sort_radicals (radicals : List DerivedEntry) : List DerivedEntry :=
  List.insertionSort entryLe radicals

/-- Whole derivation run of `main` (lines 439-465): loading the canonical
table raises when the file is absent (no output is written); missing
vocabulary files are skipped with a warning by
`extract_radicals_from_vocab`; otherwise the sorted derived table is
produced. -/
def runBuild (canonicalFile : Option (List Row214))
    (vm : List (String × String)) (tf : List (String × (String × String)))
    (cc : List (String × (String × String)))
    (files : List (String × Option (List VocabRow))) :
    Except String (List DerivedEntry) :=
  match canonicalFile with
  | none => .error "radicals_214.csv not found"
  | some rows =>
    let radicals_214 := load_radicals_214 rows
    let uv := extract_radicals_from_vocab files
    .ok (sort_radicals (build_custom_radicals radicals_214 vm tf cc uv.1 uv.2))

/-! ## `verify_radicals.py`: the validation pass (check 3) -/

/-- Building of `radicals_map` from the rows of the derived table
(`verify_radicals.py` lines 81-84, last occurrence wins). -/
def buildRadMap (entries : List DerivedEntry) : List (String × DerivedEntry) :=
  entries.foldl (fun m e => aset m e.radical e) []

/-- Python `x in l` recorded as a set: append when absent. -/
def insertNew (l : List String) (x : String) : List String :=
  if x ∈ l then l else l ++ [x]

/-- Checking of one decomposition glyph (lines 106-109): a glyph absent from
`radicals_map` is a missing-radical finding; otherwise, when the level name is
not a substring of the entry's `Levels` field, a wrong-level finding. -/
def checkRad (radMap : List (String × DerivedEntry)) (level : String)
    (st : List String × List String) (rad : String) : List String × List String :=
  match alookup radMap rad with
  | none => (insertNew st.1 rad, st.2)
  | some e =>
    if substrB level e.levels then st else (st.1, insertNew st.2 rad)

/-- Checking of one vocabulary row (lines 98-109). -/
def checkVRow (radMap : List (String × DerivedEntry)) (level : String)
    (st : List String × List String) (row : VocabRow) : List String × List String :=
  if row.radicals = "" then st
  else (parseDecomp row.radicals).foldl (checkRad radMap level) st

/-- Findings of one level: the `missing_radicals` and `wrong_level_radicals`
sets accumulated over the level's rows (lines 92-109). -/
def checkLevel (radMap : List (String × DerivedEntry)) (level : String)
    (rows : List VocabRow) : List String × List String :=
  rows.foldl (checkVRow radMap level) ([], [])

/-- Findings of every level whose vocabulary file is present (a missing file
is only a warning, lines 86-90). -/
def verifyLevels (radMap : List (String × DerivedEntry))
    (files : List (String × Option (List VocabRow))) :
    List (String × (List String × List String)) :=
  files.filterMap (fun lf => lf.2.map (fun rows => (lf.1, checkLevel radMap lf.1 rows)))

/-- Pass verdict of the validation pass: zero missing-radical and zero
wrong-level findings across all levels (lines 111-117 append an error per
nonempty set; the run returns 0 only when `errors` is empty). -/
def verifyPass (radMap : List (String × DerivedEntry))
    (files : List (String × Option (List VocabRow))) : Bool :=
  (verifyLevels radMap files).all (fun r => r.2.1.isEmpty && r.2.2.isEmpty)

/-! ## Specification-side functions

These functions restate observable behaviour of the engine for the theorems
below; they are not part of the embedded program. -/

/-- Fixed level list of the scripts (`['basic', 'intermediate', 'advanced']`). -/
def LEVELS : List String := ["basic", "intermediate", "advanced"]

/-- The same three level names in Python string order. -/
def LEVELS_SORTED : List String := ["advanced", "basic", "intermediate"]

/-- Merging of a batch of `(level, word)` occurrences of one glyph into its
optional usage record: each occurrence is one `touch`, the record being
created on the first occurrence. -/
def mrg (o : Option UsageRecord) (os : List (String × String)) : Option UsageRecord :=
  os.foldl (fun o lw => some (touch (o.getD ⟨0, [], []⟩) lw.1 lw.2)) o

/-- Usage record accumulated from an occurrence list alone. -/
def specRec (os : List (String × String)) : UsageRecord :=
  os.foldl (fun r lw => touch r lw.1 lw.2) ⟨0, [], []⟩

/-- Occurrences of glyph `g` contributed by one vocabulary row at one level:
one `(level, word)` pair per occurrence of `g` in the parsed decomposition. -/
def rowOccs (g level : String) (row : VocabRow) : List (String × String) :=
  if row.radicals = "" then []
  else ((parseDecomp row.radicals).filter (fun c => c == g)).map
    (fun _ => (level, row.word))

/-- Occurrences of glyph `g` contributed by one level file. -/
def fileOccs (g : String) (lf : String × Option (List VocabRow)) :
    List (String × String) :=
  match lf.2 with
  | none => []
  | some rows => rows.flatMap (rowOccs g lf.1)

/-- All occurrences of glyph `g` across the vocabulary files, in processing
order. -/
def occs (g : String) (files : List (String × Option (List VocabRow))) :
    List (String × String) :=
  files.flatMap (fileOccs g)

/-- Glyph `g` appears in some decomposition of some present vocabulary file. -/
def usedInVocab (g : String) (files : List (String × Option (List VocabRow))) : Prop :=
  ∃ lf ∈ files, ∃ rows, lf.2 = some rows ∧ ∃ row ∈ rows, g ∈ parseDecomp row.radicals

/-! ## Concrete scenarios

Inputs of the end-to-end scenario of the spec (section 8, property 8) and of
small witness runs. -/

/-- Scenario canonical table: the single radical 气. -/
def scnCanonical : List Row214 := [⟨"气", "qì", "steam/air radical", "air"⟩]

/-- Scenario variant map. -/
def scnVM : List (String × String) := [("氵", "水")]

/-- Scenario traditional-forms table (empty: the scenario names none). -/
def scnTF : List (String × (String × String)) := []

/-- Scenario common-component table. -/
def scnCC : List (String × (String × String)) := [("车", ("chē", "vehicle"))]

/-- Scenario vocabulary: level basic with the single word 汽车 decomposed as
氵+气+车. -/
def scnFiles : List (String × Option (List VocabRow)) :=
  [("basic", some [⟨"汽车", "qìchē", "car", "氵+气+车"⟩])]

/-- Derived table computed by the engine on the scenario inputs. -/
def scnTable : List DerivedEntry :=
  sort_radicals (build_custom_radicals (load_radicals_214 scnCanonical) scnVM
    scnTF scnCC (extract_radicals_from_vocab scnFiles).1
    (extract_radicals_from_vocab scnFiles).2)

/-- Scenario vocabulary with the intermediate and advanced files absent. -/
def c3Files : List (String × Option (List VocabRow)) :=
  [("basic", some [⟨"汽车", "qìchē", "car", "氵+气+车"⟩]),
   ("intermediate", none), ("advanced", none)]

/-- Canonical table with the tolerated duplicate glyph 斗 (two rows with
different readings). -/
def dupCanonical : List Row214 :=
  [⟨"斗", "dòu", "fight radical", "fight"⟩,
   ⟨"斗", "dǒu", "measure radical", "measure; fight"⟩]

/-- Usage map with 斗 used once at level basic. -/
def dupUsage : UsageMap := [("斗", ⟨1, ["basic"], ["斗争"]⟩)]

/-- Vocabulary with one word whose decomposition repeats the same glyph. -/
def dblFiles : List (String × Option (List VocabRow)) :=
  [("basic", some [⟨"树林", "shùlín", "forest", "木+木"⟩])]

/-! ## Order lemmas -/

theorem leChars_cons_iff {x y : Char} {xs ys : List Char} :
    leChars (x :: xs) (y :: ys) = true ↔ x < y ∨ (x = y ∧ leChars xs ys = true) := by
  rcases lt_trichotomy x y with h | h | h
  · simp [leChars, h]
  · subst h
    simp [leChars, lt_irrefl]
  · have h1 : ¬ x < y := lt_asymm h
    have h2 : x ≠ y := (ne_of_lt h).symm
    simp [leChars, h, h1, h2]

theorem leChars_total (a : List Char) : ∀ b, leChars a b = true ∨ leChars b a = true := by
  induction a with
  | nil => intro b; exact Or.inl rfl
  | cons x xs ih =>
    intro b
    cases b with
    | nil => exact Or.inr rfl
    | cons y ys =>
      rcases lt_trichotomy x y with h | h | h
      · exact Or.inl (leChars_cons_iff.2 (Or.inl h))
      · subst h
        rcases ih ys with h' | h'
        · exact Or.inl (leChars_cons_iff.2 (Or.inr ⟨rfl, h'⟩))
        · exact Or.inr (leChars_cons_iff.2 (Or.inr ⟨rfl, h'⟩))
      · exact Or.inr (leChars_cons_iff.2 (Or.inl h))

theorem leChars_trans (a : List Char) :
    ∀ b c, leChars a b = true → leChars b c = true → leChars a c = true := by
  induction a with
  | nil => intro b c _ _; rfl
  | cons x xs ih =>
    intro b c hab hbc
    cases b with
    | nil => simp [leChars] at hab
    | cons y ys =>
      cases c with
      | nil => simp [leChars] at hbc
      | cons z zs =>
        rcases leChars_cons_iff.1 hab with h1 | ⟨h1, h1'⟩ <;>
          rcases leChars_cons_iff.1 hbc with h2 | ⟨h2, h2'⟩
        · exact leChars_cons_iff.2 (Or.inl (lt_trans h1 h2))
        · exact leChars_cons_iff.2 (Or.inl (h2 ▸ h1))
        · subst h1
          exact leChars_cons_iff.2 (Or.inl h2)
        · subst h1
          subst h2
          exact leChars_cons_iff.2 (Or.inr ⟨rfl, ih ys zs h1' h2'⟩)

theorem leChars_antisymm (a : List Char) :
    ∀ b, leChars a b = true → leChars b a = true → a = b := by
  induction a with
  | nil =>
    intro b _ hba
    cases b with
    | nil => rfl
    | cons y ys => simp [leChars] at hba
  | cons x xs ih =>
    intro b hab hba
    cases b with
    | nil => simp [leChars] at hab
    | cons y ys =>
      rcases leChars_cons_iff.1 hab with h1 | ⟨h1, h1'⟩ <;>
        rcases leChars_cons_iff.1 hba with h2 | ⟨h2, h2'⟩
      · exact absurd h2 (lt_asymm h1)
      · exact absurd h1 (h2 ▸ lt_irrefl x)
      · subst h1; exact absurd h2 (lt_irrefl x)
      · subst h1
        rw [ih ys h1' h2']

theorem string_data_eq {s t : String} (h : s.data = t.data) : s = t := by
  cases s
  cases t
  cases h
  rfl

instance : IsTotal String strLe :=
  ⟨fun a b => leChars_total a.data b.data⟩

instance : IsTrans String strLe :=
  ⟨fun a b c hab hbc => leChars_trans a.data b.data c.data hab hbc⟩

instance : IsAntisymm String strLe :=
  ⟨fun a b hab hba => string_data_eq (leChars_antisymm a.data b.data hab hba)⟩

theorem entryLe_iff {a b : DerivedEntry} :
    entryLe a b ↔ set_order a.set < set_order b.set ∨
      (set_order a.set = set_order b.set ∧ strLe a.radical b.radical) := by
  simp [entryLe, entryLeB, strLe, Bool.or_eq_true, Bool.and_eq_true,
    decide_eq_true_eq]

instance : IsTotal DerivedEntry entryLe := by
  constructor
  intro a b
  rcases lt_trichotomy (set_order a.set) (set_order b.set) with h | h | h
  · exact Or.inl (entryLe_iff.2 (Or.inl h))
  · rcases leChars_total a.radical.data b.radical.data with h' | h'
    · exact Or.inl (entryLe_iff.2 (Or.inr ⟨h, h'⟩))
    · exact Or.inr (entryLe_iff.2 (Or.inr ⟨h.symm, h'⟩))
  · exact Or.inr (entryLe_iff.2 (Or.inl h))

instance : IsTrans DerivedEntry entryLe := by
  constructor
  intro a b c hab hbc
  rcases entryLe_iff.1 hab with h1 | ⟨h1, h1'⟩ <;>
    rcases entryLe_iff.1 hbc with h2 | ⟨h2, h2'⟩
  · exact entryLe_iff.2 (Or.inl (lt_trans h1 h2))
  · exact entryLe_iff.2 (Or.inl (h2 ▸ h1))
  · exact entryLe_iff.2 (Or.inl (h1 ▸ h2))
  · exact entryLe_iff.2 (Or.inr ⟨h1.trans h2,
      leChars_trans a.radical.data b.radical.data c.radical.data h1' h2'⟩)

/-! ## Association-list lemmas -/

theorem alookup_eq_none_iff {α : Type} (m : List (String × α)) (g : String) :
    alookup m g = none ↔ g ∉ m.map Prod.fst := by
  induction m with
  | nil => simp [alookup]
  | cons p rest ih =>
    obtain ⟨k, v⟩ := p
    by_cases h : k = g
    · subst h
      simp [alookup]
    · simp [alookup, h, ih, Ne.symm h]

theorem alookup_isSome_iff {α : Type} (m : List (String × α)) (g : String) :
    (alookup m g).isSome = true ↔ g ∈ m.map Prod.fst := by
  rw [Option.isSome_iff_ne_none, Ne, alookup_eq_none_iff, not_not]

theorem alookup_mem {α : Type} {m : List (String × α)} {g : String} {v : α}
    (h : alookup m g = some v) : (g, v) ∈ m := by
  induction m with
  | nil => simp [alookup] at h
  | cons p rest ih =>
    obtain ⟨k, w⟩ := p
    by_cases hk : k = g
    · subst hk
      simp [alookup] at h
      subst h
      exact List.mem_cons_self _ _
    · simp [alookup, hk] at h
      exact List.mem_cons_of_mem _ (ih h)

theorem mem_alookup_of_nodup {α : Type} :
    ∀ {m : List (String × α)}, (m.map Prod.fst).Nodup →
      ∀ {g : String} {v : α}, (g, v) ∈ m → alookup m g = some v := by
  intro m
  induction m with
  | nil => intro _ g v h; simp at h
  | cons p rest ih =>
    obtain ⟨k, w⟩ := p
    intro hn g v h
    simp only [List.map_cons, List.nodup_cons] at hn
    rcases List.mem_cons.1 h with h' | h'
    · cases h'
      simp [alookup]
    · have hgk : k ≠ g := by
        intro he
        subst he
        exact hn.1 (List.mem_map.2 ⟨(k, v), h', rfl⟩)
      simp [alookup, hgk]
      exact ih hn.2 h'

theorem alookup_aset {α : Type} (m : List (String × α)) (k : String) (v : α) (g : String) :
    alookup (aset m k v) g = if k = g then some v else alookup m g := by
  induction m with
  | nil => simp [aset, alookup]
  | cons p rest ih =>
    obtain ⟨k', v'⟩ := p
    by_cases h : k' = k
    · subst h
      by_cases hg : k' = g <;> simp [aset, alookup, hg]
    · by_cases hg : k' = g
      · subst hg
        have : k ≠ k' := fun he => h he.symm
        simp [aset, alookup, h, this]
      · simp [aset, alookup, h, hg, ih]

theorem alookup_append_of_some {α : Type} {m : List (String × α)} {g : String} {v : α}
    (h : alookup m g = some v) (l2 : List (String × α)) :
    alookup (m ++ l2) g = some v := by
  induction m with
  | nil => simp [alookup] at h
  | cons p rest ih =>
    obtain ⟨k, w⟩ := p
    by_cases hk : k = g
    · subst hk
      simp [alookup] at h ⊢
      exact h
    · simp [alookup, hk] at h ⊢
      exact ih h

theorem alookup_append_of_none {α : Type} {m : List (String × α)} {g : String}
    (h : alookup m g = none) (l2 : List (String × α)) :
    alookup (m ++ l2) g = alookup l2 g := by
  induction m with
  | nil => rfl
  | cons p rest ih =>
    obtain ⟨k, w⟩ := p
    by_cases hk : k = g
    · subst hk
      simp [alookup] at h
    · simp [alookup, hk] at h ⊢
      exact ih h

/-! ## Lemmas about `load_radicals_214` -/

theorem loadAux_inv (rows : List Row214) :
    ∀ acc, (∀ p ∈ acc, (p : String × RadRecord).2.radical = p.1 ∧ p.2.set = "kangxi_214") →
      ∀ p ∈ loadAux acc rows, (p : String × RadRecord).2.radical = p.1 ∧ p.2.set = "kangxi_214" := by
  induction rows with
  | nil => intro acc h; exact h
  | cons row rest ih =>
    intro acc h
    simp only [loadAux]
    apply ih
    split_ifs with hc
    · exact h
    · intro p hp
      rcases List.mem_append.1 hp with hp | hp
      · exact h p hp
      · simp only [List.mem_singleton] at hp
        subst hp
        exact ⟨rfl, rfl⟩

theorem load_radicals_214_inv {rows : List Row214} {g : String} {b : RadRecord}
    (h : alookup (load_radicals_214 rows) g = some b) :
    b.radical = g ∧ b.set = "kangxi_214" := by
  have := loadAux_inv rows [] (by simp) (g, b) (alookup_mem h)
  exact this

theorem loadAux_lookup (rows : List Row214) :
    ∀ acc g, alookup (loadAux acc rows) g =
      match alookup acc g with
      | some v => some v
      | none => (rows.find? (fun r => decide (r.radical = g))).map mkRec214 := by
  induction rows with
  | nil => intro acc g; cases h : alookup acc g <;> simp [loadAux, h]
  | cons row rest ih =>
    intro acc g
    simp only [loadAux]
    split_ifs with hc
    · rw [ih]
      cases h : alookup acc g with
      | some v => simp
      | none =>
        have hne : ¬ (row.radical = g) = True := by
          simp only [eq_iff_iff, iff_true]
          intro he
          rw [he, h] at hc
          simp at hc
        have hne' : decide (row.radical = g) = false := by
          simp only [decide_eq_false_iff_not]
          intro he
          rw [he, h] at hc
          simp at hc
        simp [List.find?_cons, hne']
    · rw [ih]
      cases h : alookup acc g with
      | some v =>
        rw [alookup_append_of_some h]
      | none =>
        rw [alookup_append_of_none h]
        by_cases he : row.radical = g
        · have hd : decide (row.radical = g) = true := by simp [he]
          simp [alookup, he, List.find?_cons, hd, mkRec214]
        · have hd : decide (row.radical = g) = false := by simp [he]
          simp [alookup, he, List.find?_cons, hd]

theorem load_radicals_214_lookup (rows : List Row214) (g : String) :
    alookup (load_radicals_214 rows) g =
      (rows.find? (fun r => decide (r.radical = g))).map mkRec214 := by
  rw [load_radicals_214, loadAux_lookup]
  rfl

/-! ## Lemmas about `extract_radicals_from_vocab` -/

theorem bump_alookup_self (m : UsageMap) (g level word : String) :
    alookup (bump m g level word) g =
      some (touch ((alookup m g).getD ⟨0, [], []⟩) level word) := by
  induction m with
  | nil => simp [bump, alookup]
  | cons p rest ih =>
    obtain ⟨k, r⟩ := p
    by_cases h : k = g
    · subst h
      simp [bump, alookup]
    · simp [bump, alookup, h, ih]

theorem bump_alookup_ne (m : UsageMap) {g g' : String} (h : g' ≠ g)
    (level word : String) :
    alookup (bump m g level word) g' = alookup m g' := by
  induction m with
  | nil => simp [bump, alookup, Ne.symm h]
  | cons p rest ih =>
    obtain ⟨k, r⟩ := p
    by_cases hk : k = g
    · subst hk
      simp [bump, alookup, Ne.symm h]
    · by_cases hk' : k = g'
      · subst hk'
        simp [bump, alookup, hk, h]
      · simp [bump, alookup, hk, hk', ih]

theorem mrg_append (o : Option UsageRecord) (a b : List (String × String)) :
    mrg o (a ++ b) = mrg (mrg o a) b := by
  simp [mrg, List.foldl_append]

theorem comps_fold_alookup (comps : List String) :
    ∀ (m : UsageMap) (g level word : String),
      alookup (comps.foldl (fun m c => bump m c level word) m) g =
        mrg (alookup m g)
          ((comps.filter (fun c => c == g)).map (fun _ => (level, word))) := by
  induction comps with
  | nil => intro m g level word; rfl
  | cons c cs ih =>
    intro m g level word
    simp only [List.foldl_cons]
    rw [ih]
    by_cases h : c = g
    · subst h
      rw [bump_alookup_self]
      simp only [List.filter_cons, beq_self_eq_true, if_pos, List.map_cons]
      rfl
    · rw [bump_alookup_ne _ (Ne.symm h)]
      have hb : (c == g) = false := by simp [h]
      simp [List.filter_cons, hb]

theorem processRow_alookup (level : String) (st : UsageMap × VocabLookup)
    (row : VocabRow) (g : String) :
    alookup (processRow level st row).1 g =
      mrg (alookup st.1 g) (rowOccs g level row) := by
  by_cases h : row.radicals = ""
  · simp [processRow, h, rowOccs, mrg]
  · simp [processRow, h, rowOccs, comps_fold_alookup]

theorem rowsFold_alookup (rows : List VocabRow) :
    ∀ (level : String) (st : UsageMap × VocabLookup) (g : String),
      alookup ((rows.foldl (processRow level) st)).1 g =
        mrg (alookup st.1 g) (rows.flatMap (rowOccs g level)) := by
  induction rows with
  | nil => intro level st g; rfl
  | cons row rest ih =>
    intro level st g
    simp only [List.foldl_cons, List.flatMap_cons]
    rw [ih, processRow_alookup, ← mrg_append]

theorem filesFold_alookup (files : List (String × Option (List VocabRow))) :
    ∀ (st : UsageMap × VocabLookup) (g : String),
      alookup ((files.foldl processLevel st)).1 g =
        mrg (alookup st.1 g) (files.flatMap (fileOccs g)) := by
  induction files with
  | nil => intro st g; rfl
  | cons lf rest ih =>
    intro st g
    simp only [List.foldl_cons, List.flatMap_cons]
    rw [ih]
    obtain ⟨lev, file⟩ := lf
    cases file with
    | none => simp [processLevel, fileOccs]
    | some rows =>
      rw [show processLevel st (lev, some rows) = rows.foldl (processRow lev) st from rfl]
      rw [rowsFold_alookup]
      rw [show fileOccs g (lev, some rows) = rows.flatMap (rowOccs g lev) from rfl]
      rw [← mrg_append]

theorem extract_alookup (files : List (String × Option (List VocabRow))) (g : String) :
    alookup (extract_radicals_from_vocab files).1 g = mrg none (occs g files) :=
  filesFold_alookup files ([], []) g

theorem mrg_some (r : UsageRecord) (os : List (String × String)) :
    mrg (some r) os = some (os.foldl (fun r lw => touch r lw.1 lw.2) r) := by
  induction os generalizing r with
  | nil => rfl
  | cons x xs ih =>
    rw [show mrg (some r) (x :: xs) = mrg (some (touch r x.1 x.2)) xs from rfl, ih]
    rfl

theorem mrg_none_eq (os : List (String × String)) :
    mrg none os = if os = [] then none else some (specRec os) := by
  cases os with
  | nil => rfl
  | cons x xs =>
    rw [show mrg none (x :: xs) = mrg (some (touch ⟨0, [], []⟩ x.1 x.2)) xs from rfl,
      mrg_some]
    rfl

theorem foldl_touch_count (os : List (String × String)) :
    ∀ r : UsageRecord,
      (os.foldl (fun r lw => touch r lw.1 lw.2) r).count = r.count + os.length := by
  induction os with
  | nil => intro r; simp
  | cons x xs ih =>
    intro r
    simp only [List.foldl_cons, List.length_cons]
    rw [ih]
    simp [touch]
    omega

theorem foldl_touch_words (os : List (String × String)) :
    ∀ r : UsageRecord,
      (os.foldl (fun r lw => touch r lw.1 lw.2) r).words =
        r.words ++ (os.map Prod.snd).take (5 - r.words.length) := by
  induction os with
  | nil => intro r; simp
  | cons x xs ih =>
    intro r
    simp only [List.foldl_cons, List.map_cons]
    rw [ih]
    by_cases h : r.words.length < 5
    · have hw : (touch r x.1 x.2).words = r.words ++ [x.2] := by simp [touch, h]
      rw [hw]
      have hl : (r.words ++ [x.2]).length = r.words.length + 1 := by simp
      rw [hl]
      have hs : 5 - r.words.length = (5 - (r.words.length + 1)) + 1 := by omega
      rw [hs, List.take_succ_cons, List.append_assoc]
      rfl
    · have hw : (touch r x.1 x.2).words = r.words := by simp [touch, h]
      rw [hw]
      have h5 : 5 - r.words.length = 0 := by omega
      simp [h5]

theorem foldl_touch_levels_nodup (os : List (String × String)) :
    ∀ r : UsageRecord, r.levels.Nodup →
      (os.foldl (fun r lw => touch r lw.1 lw.2) r).levels.Nodup := by
  induction os with
  | nil => intro r h; exact h
  | cons x xs ih =>
    intro r h
    simp only [List.foldl_cons]
    apply ih
    by_cases hm : x.1 ∈ r.levels
    · simpa [touch, hm] using h
    · simp [touch, hm, List.nodup_append, h]

theorem foldl_touch_levels_mem (os : List (String × String)) :
    ∀ (r : UsageRecord) (l : String),
      l ∈ (os.foldl (fun r lw => touch r lw.1 lw.2) r).levels →
        l ∈ r.levels ∨ l ∈ os.map Prod.fst := by
  induction os with
  | nil => intro r l h; exact Or.inl h
  | cons x xs ih =>
    intro r l h
    simp only [List.foldl_cons] at h
    rcases ih _ l h with h' | h'
    · by_cases hm : x.1 ∈ r.levels
      · simp [touch, hm] at h'
        exact Or.inl h'
      · simp [touch, hm] at h'
        rcases h' with h' | h'
        · exact Or.inl h'
        · exact Or.inr (by simp [h'])
    · exact Or.inr (by simp [h'])

theorem bump_keys (m : UsageMap) (g level word : String) :
    (bump m g level word).map Prod.fst =
      if g ∈ m.map Prod.fst then m.map Prod.fst else m.map Prod.fst ++ [g] := by
  induction m with
  | nil => simp [bump]
  | cons p rest ih =>
    obtain ⟨k, r⟩ := p
    by_cases h : k = g
    · subst h
      simp [bump]
    · by_cases hm : g ∈ rest.map Prod.fst <;>
        simp [bump, h, ih, hm, Ne.symm h]

theorem bump_keys_nodup {m : UsageMap} (hn : (m.map Prod.fst).Nodup)
    (g level word : String) : ((bump m g level word).map Prod.fst).Nodup := by
  rw [bump_keys]
  split_ifs with h
  · exact hn
  · simp [List.nodup_append, hn, h]

theorem extract_keys_nodup (files : List (String × Option (List VocabRow))) :
    ((extract_radicals_from_vocab files).1.map Prod.fst).Nodup := by
  have comps : ∀ (comps : List String) (level word : String) (m : UsageMap),
      (m.map Prod.fst).Nodup →
      (((comps.foldl (fun m c => bump m c level word) m)).map Prod.fst).Nodup := by
    intro comps
    induction comps with
    | nil => intro _ _ m hm; exact hm
    | cons c cs ih =>
      intro level word m hm
      exact ih level word _ (bump_keys_nodup hm c level word)
  have row : ∀ (level : String) (row : VocabRow) (st : UsageMap × VocabLookup),
      (st.1.map Prod.fst).Nodup → (((processRow level st row).1).map Prod.fst).Nodup := by
    intro level row st hst
    by_cases h : row.radicals = ""
    · simpa [processRow, h] using hst
    · simpa [processRow, h] using comps (parseDecomp row.radicals) level row.word st.1 hst
  have rows : ∀ (rows : List VocabRow) (level : String) (st : UsageMap × VocabLookup),
      (st.1.map Prod.fst).Nodup →
      (((rows.foldl (processRow level) st)).1.map Prod.fst).Nodup := by
    intro rows
    induction rows with
    | nil => intro _ st h; exact h
    | cons r rs ih =>
      intro level st hst
      exact ih level _ (row level r st hst)
  have files' : ∀ (files : List (String × Option (List VocabRow)))
      (st : UsageMap × VocabLookup), (st.1.map Prod.fst).Nodup →
      (((files.foldl processLevel st)).1.map Prod.fst).Nodup := by
    intro files
    induction files with
    | nil => intro st h; exact h
    | cons lf rest ih =>
      intro st hst
      obtain ⟨lev, file⟩ := lf
      cases file with
      | none => exact ih _ hst
      | some rs => exact ih _ (rows rs lev st hst)
  exact files' files ([], []) (by simp)

theorem parseDecomp_empty : parseDecomp "" = [] := by decide

theorem mem_rowOccs {x : String × String} {g level : String} {row : VocabRow} :
    x ∈ rowOccs g level row ↔
      g ∈ parseDecomp row.radicals ∧ x = (level, row.word) := by
  by_cases h : row.radicals = ""
  · rw [h]
    simp [rowOccs, h, parseDecomp_empty]
  · simp only [rowOccs, if_neg h, List.mem_map, List.mem_filter, beq_iff_eq]
    constructor
    · rintro ⟨a, ⟨ha, rfl⟩, rfl⟩
      exact ⟨ha, rfl⟩
    · rintro ⟨hg, rfl⟩
      exact ⟨g, ⟨hg, rfl⟩, rfl⟩

theorem mem_fileOccs {x : String × String} {g : String}
    {lf : String × Option (List VocabRow)} :
    x ∈ fileOccs g lf ↔
      ∃ rows, lf.2 = some rows ∧ ∃ row ∈ rows, x ∈ rowOccs g lf.1 row := by
  obtain ⟨lev, file⟩ := lf
  cases file with
  | none => simp [fileOccs]
  | some rows => simp [fileOccs, List.mem_flatMap]

theorem occs_ne_nil_iff (g : String) (files : List (String × Option (List VocabRow))) :
    occs g files ≠ [] ↔ usedInVocab g files := by
  constructor
  · intro h
    obtain ⟨x, hx⟩ := List.exists_mem_of_ne_nil _ h
    obtain ⟨lf, hlf, hxf⟩ := List.mem_flatMap.1 hx
    obtain ⟨rows, hrows, row, hrow, hx'⟩ := mem_fileOccs.1 hxf
    exact ⟨lf, hlf, rows, hrows, row, hrow, (mem_rowOccs.1 hx').1⟩
  · rintro ⟨lf, hlf, rows, hrows, row, hrow, hg⟩
    intro hnil
    have hm : (lf.1, row.word) ∈ occs g files :=
      List.mem_flatMap.2 ⟨lf, hlf,
        mem_fileOccs.2 ⟨rows, hrows, row, hrow, mem_rowOccs.2 ⟨hg, rfl⟩⟩⟩
    rw [hnil] at hm
    exact absurd hm (List.not_mem_nil _)

theorem extract_mem_keys_iff (files : List (String × Option (List VocabRow)))
    (g : String) :
    g ∈ (extract_radicals_from_vocab files).1.map Prod.fst ↔ usedInVocab g files := by
  rw [← alookup_isSome_iff, extract_alookup, mrg_none_eq, ← occs_ne_nil_iff]
  split_ifs with h
  · simp [h]
  · simp [h]

/-! ## Lemmas about the validation pass -/

theorem mem_insertNew {l : List String} {x y : String} :
    x ∈ insertNew l y ↔ x ∈ l ∨ x = y := by
  by_cases h : y ∈ l
  · simp only [insertNew, if_pos h]
    constructor
    · exact Or.inl
    · rintro (h' | rfl)
      · exact h'
      · exact h
  · simp [insertNew, h]

/-- Conditions under which the per-level loop records a finding for glyph `g`:
`missCond` for the `missing_radicals` set, `wrongCond` for the
`wrong_level_radicals` set. -/
def missCond (radMap : List (String × DerivedEntry)) (g : String) : Prop :=
  alookup radMap g = none

def wrongCond (radMap : List (String × DerivedEntry)) (level g : String) : Prop :=
  ∃ e, alookup radMap g = some e ∧ substrB level e.levels = false

theorem checkFold_mem (radMap : List (String × DerivedEntry)) (level : String)
    (comps : List String) :
    ∀ (st : List String × List String) (g : String),
      (g ∈ (comps.foldl (checkRad radMap level) st).1 ↔
        g ∈ st.1 ∨ (g ∈ comps ∧ missCond radMap g)) ∧
      (g ∈ (comps.foldl (checkRad radMap level) st).2 ↔
        g ∈ st.2 ∨ (g ∈ comps ∧ wrongCond radMap level g)) := by
  induction comps with
  | nil => intro st g; simp
  | cons c cs ih =>
    intro st g
    simp only [List.foldl_cons]
    have hih := ih (checkRad radMap level st c) g
    cases h : alookup radMap c with
    | none =>
      have hst : checkRad radMap level st c = (insertNew st.1 c, st.2) := by
        simp [checkRad, h]
      rw [hst] at hih
      rw [hst]
      constructor
      · rw [hih.1]
        simp only [mem_insertNew]
        constructor
        · rintro ((h1 | rfl) | ⟨hc, hn⟩)
          · exact Or.inl h1
          · exact Or.inr ⟨List.mem_cons_self _ _, h⟩
          · exact Or.inr ⟨List.mem_cons_of_mem _ hc, hn⟩
        · rintro (h1 | ⟨hc, hn⟩)
          · exact Or.inl (Or.inl h1)
          · rcases List.mem_cons.1 hc with rfl | hc'
            · exact Or.inl (Or.inr rfl)
            · exact Or.inr ⟨hc', hn⟩
      · rw [hih.2]
        constructor
        · rintro (h2 | ⟨hc, he⟩)
          · exact Or.inl h2
          · exact Or.inr ⟨List.mem_cons_of_mem _ hc, he⟩
        · rintro (h2 | ⟨hc, he⟩)
          · exact Or.inl h2
          · rcases List.mem_cons.1 hc with rfl | hc'
            · obtain ⟨e', he', hs⟩ := he
              rw [h] at he'
              simp at he'
            · exact Or.inr ⟨hc', he⟩
    | some e =>
      by_cases hs : substrB level e.levels = true
      · have hst : checkRad radMap level st c = st := by
          simp [checkRad, h, hs]
        rw [hst] at hih
        rw [hst]
        constructor
        · rw [hih.1]
          constructor
          · rintro (h1 | ⟨hc, hn⟩)
            · exact Or.inl h1
            · exact Or.inr ⟨List.mem_cons_of_mem _ hc, hn⟩
          · rintro (h1 | ⟨hc, hn⟩)
            · exact Or.inl h1
            · rcases List.mem_cons.1 hc with rfl | hc'
              · simp [missCond, h] at hn
              · exact Or.inr ⟨hc', hn⟩
        · rw [hih.2]
          constructor
          · rintro (h2 | ⟨hc, he⟩)
            · exact Or.inl h2
            · exact Or.inr ⟨List.mem_cons_of_mem _ hc, he⟩
          · rintro (h2 | ⟨hc, he⟩)
            · exact Or.inl h2
            · rcases List.mem_cons.1 hc with rfl | hc'
              · obtain ⟨e', he', hs'⟩ := he
                rw [h] at he'
                obtain rfl : e = e' := by injection he'
                rw [hs] at hs'
                simp at hs'
              · exact Or.inr ⟨hc', he⟩
      · have hs2 : substrB level e.levels = false := by
          revert hs
          cases substrB level e.levels <;> simp
        have hst : checkRad radMap level st c = (st.1, insertNew st.2 c) := by
          simp [checkRad, h, hs2]
        rw [hst] at hih
        rw [hst]
        constructor
        · rw [hih.1]
          constructor
          · rintro (h1 | ⟨hc, hn⟩)
            · exact Or.inl h1
            · exact Or.inr ⟨List.mem_cons_of_mem _ hc, hn⟩
          · rintro (h1 | ⟨hc, hn⟩)
            · exact Or.inl h1
            · rcases List.mem_cons.1 hc with rfl | hc'
              · simp [missCond, h] at hn
              · exact Or.inr ⟨hc', hn⟩
        · rw [hih.2]
          simp only [mem_insertNew]
          constructor
          · rintro ((h2 | rfl) | ⟨hc, he⟩)
            · exact Or.inl h2
            · exact Or.inr ⟨List.mem_cons_self _ _, e, h, hs2⟩
            · exact Or.inr ⟨List.mem_cons_of_mem _ hc, he⟩
          · rintro (h2 | ⟨hc, he⟩)
            · exact Or.inl (Or.inl h2)
            · rcases List.mem_cons.1 hc with rfl | hc'
              · exact Or.inl (Or.inr rfl)
              · exact Or.inr ⟨hc', he⟩


theorem checkVRow_mem (radMap : List (String × DerivedEntry)) (level : String)
    (st : List String × List String) (row : VocabRow) (g : String) :
    (g ∈ (checkVRow radMap level st row).1 ↔
      g ∈ st.1 ∨ (g ∈ parseDecomp row.radicals ∧ missCond radMap g)) ∧
    (g ∈ (checkVRow radMap level st row).2 ↔
      g ∈ st.2 ∨ (g ∈ parseDecomp row.radicals ∧ wrongCond radMap level g)) := by
  by_cases h : row.radicals = ""
  · rw [h]
    simp [checkVRow, h, parseDecomp_empty]
  · simp only [checkVRow, if_neg h]
    exact checkFold_mem radMap level (parseDecomp row.radicals) st g

theorem checkLevelFold_mem (radMap : List (String × DerivedEntry)) (level : String)
    (rows : List VocabRow) :
    ∀ (st : List String × List String) (g : String),
      (g ∈ (rows.foldl (checkVRow radMap level) st).1 ↔
        g ∈ st.1 ∨ ((∃ row ∈ rows, g ∈ parseDecomp row.radicals) ∧ missCond radMap g)) ∧
      (g ∈ (rows.foldl (checkVRow radMap level) st).2 ↔
        g ∈ st.2 ∨ ((∃ row ∈ rows, g ∈ parseDecomp row.radicals) ∧ wrongCond radMap level g)) := by
  induction rows with
  | nil => intro st g; simp
  | cons row rs ih =>
    intro st g
    simp only [List.foldl_cons]
    have hih := ih (checkVRow radMap level st row) g
    have hrow := checkVRow_mem radMap level st row g
    constructor
    · rw [hih.1, hrow.1]
      constructor
      · rintro ((h1 | ⟨hg, hn⟩) | ⟨⟨r, hr, hg⟩, hn⟩)
        · exact Or.inl h1
        · exact Or.inr ⟨⟨row, List.mem_cons_self _ _, hg⟩, hn⟩
        · exact Or.inr ⟨⟨r, List.mem_cons_of_mem _ hr, hg⟩, hn⟩
      · rintro (h1 | ⟨⟨r, hr, hg⟩, hn⟩)
        · exact Or.inl (Or.inl h1)
        · rcases List.mem_cons.1 hr with rfl | hr'
          · exact Or.inl (Or.inr ⟨hg, hn⟩)
          · exact Or.inr ⟨⟨r, hr', hg⟩, hn⟩
    · rw [hih.2, hrow.2]
      constructor
      · rintro ((h2 | ⟨hg, he⟩) | ⟨⟨r, hr, hg⟩, he⟩)
        · exact Or.inl h2
        · exact Or.inr ⟨⟨row, List.mem_cons_self _ _, hg⟩, he⟩
        · exact Or.inr ⟨⟨r, List.mem_cons_of_mem _ hr, hg⟩, he⟩
      · rintro (h2 | ⟨⟨r, hr, hg⟩, he⟩)
        · exact Or.inl (Or.inl h2)
        · rcases List.mem_cons.1 hr with rfl | hr'
          · exact Or.inl (Or.inr ⟨hg, he⟩)
          · exact Or.inr ⟨⟨r, hr', hg⟩, he⟩

theorem checkLevel_mem (radMap : List (String × DerivedEntry)) (level : String)
    (rows : List VocabRow) (g : String) :
    (g ∈ (checkLevel radMap level rows).1 ↔
      (∃ row ∈ rows, g ∈ parseDecomp row.radicals) ∧ missCond radMap g) ∧
    (g ∈ (checkLevel radMap level rows).2 ↔
      (∃ row ∈ rows, g ∈ parseDecomp row.radicals) ∧ wrongCond radMap level g) := by
  have := checkLevelFold_mem radMap level rows ([], []) g
  simpa [checkLevel] using this

theorem verifyPass_iff (radMap : List (String × DerivedEntry))
    (files : List (String × Option (List VocabRow))) :
    verifyPass radMap files = true ↔
      ∀ lf ∈ files, ∀ rows, (lf : String × Option (List VocabRow)).2 = some rows →
        (checkLevel radMap lf.1 rows).1 = [] ∧ (checkLevel radMap lf.1 rows).2 = [] := by
  simp only [verifyPass, verifyLevels, List.all_eq_true, List.mem_filterMap]
  constructor
  · intro h lf hlf rows hrows
    have := h (lf.1, checkLevel radMap lf.1 rows)
      ⟨lf, hlf, by rw [hrows]; rfl⟩
    simp only [Bool.and_eq_true, List.isEmpty_iff] at this
    exact this
  · rintro h p ⟨lf, hlf, hp⟩
    cases hrows : lf.2 with
    | none => rw [hrows] at hp; simp at hp
    | some rows =>
      rw [hrows] at hp
      simp only [Option.map_some'] at hp
      injection hp with hp
      subst hp
      have := h lf hlf rows hrows
      simp only [Bool.and_eq_true, List.isEmpty_iff]
      exact this

theorem buildRadMap_lookup_none_iff (entries : List DerivedEntry) (g : String) :
    alookup (buildRadMap entries) g = none ↔ g ∉ entries.map DerivedEntry.radical := by
  have gen : ∀ (es : List DerivedEntry) (m : List (String × DerivedEntry)),
      alookup (es.foldl (fun m e => aset m e.radical e) m) g = none ↔
        alookup m g = none ∧ g ∉ es.map DerivedEntry.radical := by
    intro es
    induction es with
    | nil => intro m; simp
    | cons e rest ih =>
      intro m
      simp only [List.foldl_cons, ih, alookup_aset, List.map_cons, List.mem_cons]
      by_cases h : e.radical = g
      · simp [h]
      · simp [h, Ne.symm h]
  have := gen entries []
  simpa [buildRadMap, alookup] using this

/-! ## Sorting lemmas -/

theorem sortStrings_eq_filter {M L : List String} (hM : List.Sorted strLe M)
    (hMn : M.Nodup) (hLn : L.Nodup) (hsub : ∀ x ∈ L, x ∈ M) :
    sortStrings L = M.filter (fun x => decide (x ∈ L)) := by
  have h1 : List.Perm (sortStrings L) (M.filter (fun x => decide (x ∈ L))) := by
    refine (List.perm_insertionSort strLe L).trans ?_
    refine (List.perm_ext_iff_of_nodup hLn (hMn.filter _)).2 ?_
    intro a
    simp only [List.mem_filter, decide_eq_true_eq]
    exact ⟨fun ha => ⟨hsub a ha, ha⟩, fun h => h.2⟩
  exact List.eq_of_perm_of_sorted h1 (List.sorted_insertionSort strLe L)
    (List.Pairwise.filter _ hM)

theorem levels_sorted_sorted : List.Sorted strLe LEVELS_SORTED := by
  refine List.Pairwise.cons ?_ (List.Pairwise.cons ?_ ?_)
  · intro b hb
    rcases List.mem_cons.1 hb with rfl | hb
    · decide
    · obtain rfl := List.mem_singleton.1 hb
      decide
  · intro b hb
    obtain rfl := List.mem_singleton.1 hb
    decide
  · simp

theorem levels_sorted_nodup : LEVELS_SORTED.Nodup := by decide

theorem mem_levels_iff_mem_sorted {x : String} : x ∈ LEVELS ↔ x ∈ LEVELS_SORTED := by
  simp only [LEVELS, LEVELS_SORTED, List.mem_cons, List.not_mem_nil, or_false]
  tauto

/-- Core combinatorial fact behind claim C10: for a duplicate-free level set
drawn from the three level names, the validator's substring test on the
comma-joined sorted field agrees with set membership. -/
theorem substr_levels_iff {L : List String} (hLn : L.Nodup)
    (hsub : ∀ x ∈ L, x ∈ LEVELS) :
    ∀ ℓ ∈ LEVELS, (substrB ℓ (joinComma (sortStrings L)) = true ↔ ℓ ∈ L) := by
  have hsub' : ∀ x ∈ L, x ∈ LEVELS_SORTED := fun x hx =>
    mem_levels_iff_mem_sorted.1 (hsub x hx)
  rw [sortStrings_eq_filter levels_sorted_sorted levels_sorted_nodup hLn hsub']
  intro ℓ hℓ
  have hL3 : ℓ = "basic" ∨ ℓ = "intermediate" ∨ ℓ = "advanced" := by
    simpa [LEVELS] using hℓ
  by_cases h1 : "advanced" ∈ L <;> by_cases h2 : "basic" ∈ L <;>
    by_cases h3 : "intermediate" ∈ L <;>
    rcases hL3 with rfl | rfl | rfl <;>
    simp only [LEVELS_SORTED, List.filter_cons, List.filter_nil,
      decide_eq_true_eq, h1, h2, h3, if_true, if_false, ite_true, ite_false,
      iff_true, iff_false] <;>
    decide

theorem classify_levels (radicals_214 : List (String × RadRecord))
    (vm : List (String × String)) (tf cc : List (String × (String × String)))
    (vl : VocabLookup) (rad : String) (u : UsageRecord) :
    (classify radicals_214 vm tf cc vl rad u).levels =
      joinComma (sortStrings u.levels) := by
  cases h1 : alookup radicals_214 rad with
  | some base => simp [classify, h1]
  | none =>
    cases h2 : alookup vm rad with
    | some mr =>
      cases h3 : alookup radicals_214 mr with
      | some base => simp [classify, h1, h2, h3]
      | none => simp [classify, h1, h2, h3]
    | none =>
      cases h4 : alookup vl rad with
      | some info => simp [classify, h1, h2, h4]
      | none =>
        cases h5 : alookup cc rad with
        | some pm => simp [classify, h1, h2, h4, h5]
        | none => simp [classify, h1, h2, h4, h5]

theorem extract_levels (files : List (String × Option (List VocabRow)))
    (g : String) (u : UsageRecord)
    (h : alookup (extract_radicals_from_vocab files).1 g = some u) :
    u.levels.Nodup ∧ ∀ l ∈ u.levels, l ∈ files.map Prod.fst := by
  rw [extract_alookup, mrg_none_eq] at h
  split_ifs at h with hnil
  have hu : u = specRec (occs g files) := (Option.some.inj h).symm
  subst hu
  constructor
  · exact foldl_touch_levels_nodup _ _ (by simp)
  · intro l hl
    rcases foldl_touch_levels_mem _ _ l hl with h' | h'
    · simp at h'
    · obtain ⟨x, hx, rfl⟩ := List.mem_map.1 h'
      obtain ⟨lf, hlf, hxf⟩ := List.mem_flatMap.1 hx
      obtain ⟨rows, hrows, row, hrow, hx'⟩ := mem_fileOccs.1 hxf
      obtain ⟨-, rfl⟩ := mem_rowOccs.1 hx'
      exact List.mem_map.2 ⟨lf, hlf, rfl⟩

/-! ## Classification lemmas -/

theorem classify_radical (rows : List Row214) (vm : List (String × String))
    (tf cc : List (String × (String × String))) (vl : VocabLookup)
    (rad : String) (u : UsageRecord) :
    (classify (load_radicals_214 rows) vm tf cc vl rad u).radical = rad := by
  cases h1 : alookup (load_radicals_214 rows) rad with
  | some base => simp [classify, h1, (load_radicals_214_inv h1).1]
  | none =>
    cases h2 : alookup vm rad with
    | some mr =>
      cases h3 : alookup (load_radicals_214 rows) mr with
      | some base => simp [classify, h1, h2, h3]
      | none => simp [classify, h1, h2, h3]
    | none =>
      cases h4 : alookup vl rad with
      | some info => simp [classify, h1, h2, h4]
      | none =>
        cases h5 : alookup cc rad with
        | some pm => simp [classify, h1, h2, h4, h5]
        | none => simp [classify, h1, h2, h4, h5]

theorem classify_set (rows : List Row214) (vm : List (String × String))
    (tf cc : List (String × (String × String))) (vl : VocabLookup)
    (rad : String) (u : UsageRecord) :
    (classify (load_radicals_214 rows) vm tf cc vl rad u).set = "kangxi_214" ∨
    (classify (load_radicals_214 rows) vm tf cc vl rad u).set = "variant" ∨
    (classify (load_radicals_214 rows) vm tf cc vl rad u).set = "component" := by
  cases h1 : alookup (load_radicals_214 rows) rad with
  | some base =>
    exact Or.inl (by simp [classify, h1, (load_radicals_214_inv h1).2])
  | none =>
    cases h2 : alookup vm rad with
    | some mr =>
      cases h3 : alookup (load_radicals_214 rows) mr with
      | some base => exact Or.inr (Or.inl (by simp [classify, h1, h2, h3]))
      | none => exact Or.inr (Or.inl (by simp [classify, h1, h2, h3]))
    | none =>
      cases h4 : alookup vl rad with
      | some info => exact Or.inr (Or.inr (by simp [classify, h1, h2, h4]))
      | none =>
        cases h5 : alookup cc rad with
        | some pm => exact Or.inr (Or.inr (by simp [classify, h1, h2, h4, h5]))
        | none => exact Or.inr (Or.inr (by simp [classify, h1, h2, h4, h5]))

theorem build_map_radical (rows : List Row214) (vm : List (String × String))
    (tf cc : List (String × (String × String))) (usage : UsageMap)
    (vl : VocabLookup) :
    (build_custom_radicals (load_radicals_214 rows) vm tf cc usage vl).map
      DerivedEntry.radical = usage.map Prod.fst := by
  unfold build_custom_radicals
  rw [List.map_map]
  exact List.map_congr_left (fun p _ => classify_radical rows vm tf cc vl p.1 p.2)

/-! ## Claim theorems -/

/-- Claim C1: the key list of the derived table (after sorting) is a
permutation of the key list of the usage map; those keys are duplicate-free;
a glyph is a usage-map key exactly when it appears in some vocabulary
decomposition; and the derived table has exactly one entry per usage-map key
(its cardinality equals the number of distinct usage-map keys). -/
theorem c1_key_set (rows : List Row214) (vm : List (String × String))
    (tf cc : List (String × (String × String)))
    (files : List (String × Option (List VocabRow))) :
    List.Perm
      ((sort_radicals (build_custom_radicals (load_radicals_214 rows) vm tf cc
        (extract_radicals_from_vocab files).1
        (extract_radicals_from_vocab files).2)).map DerivedEntry.radical)
      ((extract_radicals_from_vocab files).1.map Prod.fst) ∧
    ((extract_radicals_from_vocab files).1.map Prod.fst).Nodup ∧
    (∀ g, g ∈ (extract_radicals_from_vocab files).1.map Prod.fst ↔
      usedInVocab g files) ∧
    (sort_radicals (build_custom_radicals (load_radicals_214 rows) vm tf cc
        (extract_radicals_from_vocab files).1
        (extract_radicals_from_vocab files).2)).length =
      (extract_radicals_from_vocab files).1.length := by
  have hperm := List.perm_insertionSort entryLe
    (build_custom_radicals (load_radicals_214 rows) vm tf cc
      (extract_radicals_from_vocab files).1
      (extract_radicals_from_vocab files).2)
  refine ⟨?_, extract_keys_nodup files, fun g => extract_mem_keys_iff files g, ?_⟩
  · have hm := hperm.map DerivedEntry.radical
    rw [build_map_radical] at hm
    exact hm
  · rw [sort_radicals, hperm.length_eq]
    simp [build_custom_radicals]

/-- Claim C2: a glyph that is a key of both the canonical table and the
variant map is classified from the canonical table (tag `kangxi_214`, fields
copied from the canonical record, no variant target), never as a variant. -/
theorem c2_canonical_precedence (rows : List Row214) (vm : List (String × String))
    (tf cc : List (String × (String × String))) (vl : VocabLookup)
    (rad : String) (u : UsageRecord) (base : RadRecord) (mr : String)
    (hc : alookup (load_radicals_214 rows) rad = some base)
    (hv : alookup vm rad = some mr) :
    (classify (load_radicals_214 rows) vm tf cc vl rad u).set = "kangxi_214" ∧
    (classify (load_radicals_214 rows) vm tf cc vl rad u).pinyin = base.pinyin ∧
    (classify (load_radicals_214 rows) vm tf cc vl rad u).description = base.description ∧
    (classify (load_radicals_214 rows) vm tf cc vl rad u).meaning = base.meaning ∧
    (classify (load_radicals_214 rows) vm tf cc vl rad u).mainRadical = none ∧
    (classify (load_radicals_214 rows) vm tf cc vl rad u).set ≠ "variant" := by
  have hset := (load_radicals_214_inv hc).2
  refine ⟨?_, ?_, ?_, ?_, ?_, ?_⟩ <;> simp [classify, hc, hset]

/-- Witness for C2 at a concrete input: 讠 is both a canonical-table key and a
`VARIANT_TO_MAIN` key, and is classified canonical. -/
theorem c2_witness :
    (classify (load_radicals_214 [⟨"讠", "yán", "speech radical", "speech"⟩])
      VARIANT_TO_MAIN [] [] [] "讠" ⟨1, ["basic"], ["说"]⟩).set = "kangxi_214" ∧
    (classify (load_radicals_214 [⟨"讠", "yán", "speech radical", "speech"⟩])
      VARIANT_TO_MAIN [] [] [] "讠" ⟨1, ["basic"], ["说"]⟩).pinyin = "yán" ∧
    (classify (load_radicals_214 [⟨"讠", "yán", "speech radical", "speech"⟩])
      VARIANT_TO_MAIN [] [] [] "讠" ⟨1, ["basic"], ["说"]⟩).description = "speech radical" ∧
    (classify (load_radicals_214 [⟨"讠", "yán", "speech radical", "speech"⟩])
      VARIANT_TO_MAIN [] [] [] "讠" ⟨1, ["basic"], ["说"]⟩).meaning = "speech" ∧
    (classify (load_radicals_214 [⟨"讠", "yán", "speech radical", "speech"⟩])
      VARIANT_TO_MAIN [] [] [] "讠" ⟨1, ["basic"], ["说"]⟩).mainRadical = none ∧
    (classify (load_radicals_214 [⟨"讠", "yán", "speech radical", "speech"⟩])
      VARIANT_TO_MAIN [] [] [] "讠" ⟨1, ["basic"], ["说"]⟩).set ≠ "variant" :=
  c2_canonical_precedence [⟨"讠", "yán", "speech radical", "speech"⟩]
    VARIANT_TO_MAIN [] [] [] "讠" ⟨1, ["basic"], ["说"]⟩
    (mkRec214 ⟨"讠", "yán", "speech radical", "speech"⟩) "言"
    (by decide) (by decide)

/-- Counterexample to claim C3 as stated: with the canonical table present but
the intermediate and advanced vocabulary files absent, the run does not abort;
it produces the full derived table of the remaining level. -/
theorem c3_cex :
    runBuild (some scnCanonical) scnVM scnTF scnCC c3Files = Except.ok scnTable ∧
    scnTable.length = 3 := by
  constructor
  · rfl
  · decide

/-- Claim C3 as amended: only the canonical reference table is required — its
absence aborts the run with an error and no output; a missing per-level
vocabulary file never aborts the run (the level is skipped with a warning and
a derived table is still produced). -/
theorem c3_amended_fatality :
    (∀ (vm : List (String × String)) (tf cc : List (String × (String × String)))
      (files : List (String × Option (List VocabRow))),
      runBuild none vm tf cc files = Except.error "radicals_214.csv not found") ∧
    (∀ (rows : List Row214) (vm : List (String × String))
      (tf cc : List (String × (String × String)))
      (files : List (String × Option (List VocabRow))),
      ∃ out, runBuild (some rows) vm tf cc files = Except.ok out) := by
  constructor
  · intro vm tf cc files
    rfl
  · intro rows vm tf cc files
    exact ⟨_, rfl⟩

/-- Claim C4: the sorted derived table is a permutation of its input that is
sorted by the strict multi-key order `entryLe` (classification rank, then
glyph): for any two entries in output order, the classification rank of the
first is at most that of the second (`set_order` ranks kangxi_214 = 0 before
variant = 1 before component = 2), and entries of equal classification appear
in ascending glyph (code point) order. -/
theorem c4_sort_order (rs : List DerivedEntry) :
    List.Perm (sort_radicals rs) rs ∧
    List.Sorted entryLe (sort_radicals rs) ∧
    (sort_radicals rs).Pairwise (fun a b =>
      set_order a.set ≤ set_order b.set ∧
      (a.set = b.set → strLe a.radical b.radical)) := by
  refine ⟨List.perm_insertionSort entryLe rs,
    List.sorted_insertionSort entryLe rs, ?_⟩
  refine List.Pairwise.imp ?_ (List.sorted_insertionSort entryLe rs)
  intro a b hab
  rcases entryLe_iff.1 hab with h | ⟨h, h'⟩
  · refine ⟨le_of_lt h, ?_⟩
    intro he
    rw [he] at h
    exact absurd h (lt_irrefl _)
  · exact ⟨le_of_eq h, fun _ => h'⟩

/-- Claim C5: when the canonical table repeats a glyph, the loaded record is
the one of the first row with that glyph (later duplicates silently dropped,
no error), and the derived entry for that glyph carries the first row's
reading. -/
theorem c5_first_wins (rows : List Row214) (vm : List (String × String))
    (tf cc : List (String × (String × String))) (vl : VocabLookup)
    (usage : UsageMap) (g : String) (r : Row214) (u : UsageRecord)
    (hfind : rows.find? (fun row => decide (row.radical = g)) = some r)
    (hu : (g, u) ∈ usage) :
    alookup (load_radicals_214 rows) g = some (mkRec214 r) ∧
    ∃ e ∈ build_custom_radicals (load_radicals_214 rows) vm tf cc usage vl,
      e.radical = g ∧ e.pinyin = r.pinyin := by
  have hl : alookup (load_radicals_214 rows) g = some (mkRec214 r) := by
    rw [load_radicals_214_lookup, hfind]
    rfl
  have hr : r.radical = g := by
    have := List.find?_some hfind
    simpa using this
  refine ⟨hl, classify (load_radicals_214 rows) vm tf cc vl g u, ?_, ?_, ?_⟩
  · exact List.mem_map.2 ⟨(g, u), hu, rfl⟩
  · simp [classify, hl, mkRec214, hr]
  · simp [classify, hl, mkRec214]

/-- Witness for C5 at a concrete input: the canonical table repeats 斗 with
readings dòu then dǒu; the loaded record and the derived entry carry dòu. -/
theorem c5_witness :
    alookup (load_radicals_214 dupCanonical) "斗" =
      some (mkRec214 ⟨"斗", "dòu", "fight radical", "fight"⟩) ∧
    ∃ e ∈ build_custom_radicals (load_radicals_214 dupCanonical) VARIANT_TO_MAIN
      TRADITIONAL_FORMS [] dupUsage [], e.radical = "斗" ∧ e.pinyin = "dòu" :=
  c5_first_wins dupCanonical VARIANT_TO_MAIN TRADITIONAL_FORMS [] [] dupUsage "斗"
    ⟨"斗", "dòu", "fight radical", "fight"⟩ ⟨1, ["basic"], ["斗争"]⟩
    (by decide) (by decide)

/-- Claim C6: a glyph is a missing-radical finding of a level exactly when it
occurs in that level's decompositions and is not a key of the derived table;
it is a wrong-level finding exactly when it occurs there, has a derived entry,
and the level name is not contained in that entry's `Levels` field; and the
pass verdict holds exactly when both finding sets are empty for every present
level. -/
theorem c6_validation_findings (derived : List DerivedEntry)
    (files : List (String × Option (List VocabRow))) :
    (∀ g, missCond (buildRadMap derived) g ↔ g ∉ derived.map DerivedEntry.radical) ∧
    (∀ level rows g,
      (g ∈ (checkLevel (buildRadMap derived) level rows).1 ↔
        (∃ row ∈ rows, g ∈ parseDecomp row.radicals) ∧
          missCond (buildRadMap derived) g) ∧
      (g ∈ (checkLevel (buildRadMap derived) level rows).2 ↔
        (∃ row ∈ rows, g ∈ parseDecomp row.radicals) ∧
          wrongCond (buildRadMap derived) level g)) ∧
    (verifyPass (buildRadMap derived) files = true ↔
      ∀ lf ∈ files, ∀ rows, (lf : String × Option (List VocabRow)).2 = some rows →
        (checkLevel (buildRadMap derived) lf.1 rows).1 = [] ∧
        (checkLevel (buildRadMap derived) lf.1 rows).2 = []) := by
  refine ⟨?_, ?_, ?_⟩
  · intro g
    exact buildRadMap_lookup_none_iff derived g
  · intro level rows g
    exact checkLevel_mem (buildRadMap derived) level rows g
  · exact verifyPass_iff (buildRadMap derived) files

/-- Claim C7: every entry of the derived table carries exactly one of the
three classification tags `kangxi_214` (canonical), `variant`, `component`. -/
theorem c7_classification_total (rows : List Row214) (vm : List (String × String))
    (tf cc : List (String × (String × String))) (usage : UsageMap)
    (vl : VocabLookup) (e : DerivedEntry)
    (he : e ∈ build_custom_radicals (load_radicals_214 rows) vm tf cc usage vl) :
    e.set = "kangxi_214" ∨ e.set = "variant" ∨ e.set = "component" := by
  obtain ⟨p, _, rfl⟩ := List.mem_map.1 he
  exact classify_set rows vm tf cc vl p.1 p.2

/-- Witness for C7 at a concrete input: the 氵 entry of the scenario table. -/
theorem c7_witness :
    (⟨"氵", "", "variant of 水", "component form", "variant", some "水",
      "basic", 1, "氵"⟩ : DerivedEntry).set = "kangxi_214" ∨
    (⟨"氵", "", "variant of 水", "component form", "variant", some "水",
      "basic", 1, "氵"⟩ : DerivedEntry).set = "variant" ∨
    (⟨"氵", "", "variant of 水", "component form", "variant", some "水",
      "basic", 1, "氵"⟩ : DerivedEntry).set = "component" :=
  c7_classification_total scnCanonical scnVM scnTF scnCC
    (extract_radicals_from_vocab scnFiles).1
    (extract_radicals_from_vocab scnFiles).2 _ (by decide)

/-- Counterexample to claim C8 as stated: on the scenario inputs the derived
entry for 氵 has description `variant of 水`, which does not contain the words
`variant form` (the scenario's canonical table does not contain 水, so the
generic variant description is used). -/
theorem c8_cex :
    scnTable.filter (fun e => e.radical == "氵") =
      [⟨"氵", "", "variant of 水", "component form", "variant", some "水",
        "basic", 1, "氵"⟩] ∧
    substrB "variant form" "variant of 水" = false := by
  decide

/-- Claim C8 as amended: the scenario derived table has exactly the three
expected entries — 气 canonical, 氵 variant of target 水 except that its
description is the generic `variant of 水` (not one mentioning "variant
form"), and 车 component with reading chē and gloss vehicle — and validation
of the scenario vocabulary against it reports zero missing-radical and zero
wrong-level findings. -/
theorem c8_amended_scenario :
    scnTable =
      [⟨"气", "qì", "steam/air radical", "air", "kangxi_214", none, "basic", 1, "气"⟩,
       ⟨"氵", "", "variant of 水", "component form", "variant", some "水",
         "basic", 1, "氵"⟩,
       ⟨"车", "chē", "common character component", "vehicle", "component", none,
         "basic", 1, "车"⟩] ∧
    verifyLevels (buildRadMap scnTable) scnFiles = [("basic", ([], []))] ∧
    verifyPass (buildRadMap scnTable) scnFiles = true := by
  decide

/-- Claim C9: the usage count recorded for a glyph equals the total number of
its occurrences across all decompositions of all levels (occurrences inside
one decomposition counted separately), and the example-word list is the
per-occurrence word list truncated at 5 entries, so one word can occur in it
repeatedly. -/
theorem c9_usage_counts (files : List (String × Option (List VocabRow)))
    (g : String) (u : UsageRecord)
    (h : alookup (extract_radicals_from_vocab files).1 g = some u) :
    u.count = (occs g files).length ∧
    u.words = ((occs g files).map Prod.snd).take 5 := by
  rw [extract_alookup, mrg_none_eq] at h
  split_ifs at h with hnil
  have hu : u = specRec (occs g files) := (Option.some.inj h).symm
  subst hu
  constructor
  · simp [specRec, foldl_touch_count]
  · simp [specRec, foldl_touch_words]

/-- Witness for C9 at a concrete input: 木 occurs twice inside the single
decomposition 木+木 of 树林, so its count is 2 and its example list holds the
word 树林 twice. -/
theorem c9_witness :
    (⟨2, ["basic"], ["树林", "树林"]⟩ : UsageRecord).count =
      (occs "木" dblFiles).length ∧
    (⟨2, ["basic"], ["树林", "树林"]⟩ : UsageRecord).words =
      ((occs "木" dblFiles).map Prod.snd).take 5 :=
  c9_usage_counts dblFiles "木" ⟨2, ["basic"], ["树林", "树林"]⟩ (by decide)

/-- Claim C10: for vocabulary files drawn from the three fixed level names,
the validator's substring test of a level name against a derived entry's
comma-joined `Levels` field is equivalent to membership of that level in the
entry's level set. -/
theorem c10_substring_equiv (files : List (String × Option (List VocabRow)))
    (hf : ∀ lf ∈ files, (lf : String × Option (List VocabRow)).1 ∈ LEVELS)
    (radicals_214 : List (String × RadRecord)) (vm : List (String × String))
    (tf cc : List (String × (String × String))) (vl : VocabLookup)
    (g : String) (u : UsageRecord)
    (hu : alookup (extract_radicals_from_vocab files).1 g = some u)
    (ℓ : String) (hℓ : ℓ ∈ LEVELS) :
    substrB ℓ (classify radicals_214 vm tf cc vl g u).levels = true ↔
      ℓ ∈ u.levels := by
  rw [classify_levels]
  obtain ⟨hnd, hsub⟩ := extract_levels files g u hu
  refine substr_levels_iff hnd ?_ ℓ hℓ
  intro x hx
  obtain ⟨lf, hlf, hx1⟩ := List.mem_map.1 (hsub x hx)
  rw [← hx1]
  exact hf lf hlf

/-- Witness for C10 at a concrete input: the scenario glyph 气 with level set
{basic}. -/
theorem c10_witness :
    substrB "basic"
      (classify [] [] [] [] [] "气" ⟨1, ["basic"], ["汽车"]⟩).levels = true ↔
      "basic" ∈ (⟨1, ["basic"], ["汽车"]⟩ : UsageRecord).levels :=
  c10_substring_equiv scnFiles (by decide) [] [] [] [] [] "气"
    ⟨1, ["basic"], ["汽车"]⟩ (by decide) "basic" (by decide)

end RadicalEngine
